import Mathlib

/-!
Verification development for the eclipsn brain service.

Shallow embedding of the memory pipeline of `brain/src`:
chunking heuristics (`jobs/graph_etl.py`), ingestion status tracking
(`services/memory_indexer.py`), the user-memory store
(`services/user_memory_store.py`), the nightly ingestion / condensation
pipeline (`services/memory_ingestion.py`), the similarity-graph builder
(`services/similarity_graph.py`) and the RRF retrieval fusion
(`tools/memory_tools.py`).

Conventions: Python floats are modelled as `ℚ`; database rows as lists of
structures; `datetime` values as integer epoch seconds; soft deletion as an
`Option Int` timestamp; external oracles (LLM, embeddings, HTTP fetches) as
parameters of the embedded functions.  Python dicts that are built by
insertion are modelled as association lists preserving insertion order.
-/

namespace Eclipsn

/-! ### Generic association-list helpers (model of Python `dict`) -/

/-- First-match lookup in an association list (Python `dict` access). -/
def alookup {κ β : Type} [DecidableEq κ] : List (κ × β) → κ → Option β
  | [], _ => none
  | (k, v) :: t, key => if k = key then some v else alookup t key

/-- `d[k] = f(d.get(k, dflt))`: update the stored value if the key is
present, otherwise append the key with `f dflt` (keys are unique and keep
insertion order, as in a Python `dict`). -/
def aupsert {κ β : Type} [DecidableEq κ] : List (κ × β) → κ → (β → β) → β → List (κ × β)
  | [], k, f, dflt => [(k, f dflt)]
  | (k1, v) :: t, k, f, dflt =>
    if k1 = k then (k1, f v) :: t else (k1, v) :: aupsert t k f dflt

/-- `d.setdefault(k, v)`-style insert: only insert when the key is absent
(used for `id_for_key`, which is first-seen-wins). -/
def ainsertNew {κ β : Type} [DecidableEq κ] : List (κ × β) → κ → β → List (κ × β)
  | [], k, v => [(k, v)]
  | (k1, w) :: t, k, v =>
    if k1 = k then (k1, w) :: t else (k1, w) :: ainsertNew t k v

/-! ### String helpers (structural models of the Python string operations)

These mirror `str.strip()`, `str.lower()`, `str.split()`, `str.split(sep)`,
`sub in s` and `sep.join(...)` for the ASCII data the pipeline handles; they
are written by structural recursion on the character list so that concrete
inputs evaluate by `decide`. -/

/-- Python `s.strip()`. -/
def trimStr (s : String) : String :=
  ⟨((s.data.dropWhile Char.isWhitespace).reverse.dropWhile Char.isWhitespace).reverse⟩

/-- Python `s.lower()` (ASCII). -/
def lowerStr (s : String) : String :=
  ⟨s.data.map Char.toLower⟩

/-- Does the first list start with the second? -/
def startsWithL : List Char → List Char → Bool
  | _, [] => true
  | [], _ :: _ => false
  | c :: cs, d :: ds => c = d && startsWithL cs ds

/-- Does the first list contain the second as a contiguous run? -/
def containsL : List Char → List Char → Bool
  | [], sub => sub.isEmpty
  | c :: cs, sub => startsWithL (c :: cs) sub || containsL cs sub

/-- Python `sub in s`. -/
def strContains (s sub : String) : Bool :=
  containsL s.data sub.data

/-- Python `s.split()` accumulator: split on whitespace runs, dropping
empty pieces. -/
def wordsAux : List Char → List Char → List (List Char)
  | [], acc => if acc = [] then [] else [acc.reverse]
  | c :: cs, acc =>
    if c.isWhitespace then
      if acc = [] then wordsAux cs [] else acc.reverse :: wordsAux cs []
    else wordsAux cs (c :: acc)

/-- Python `s.split()`. -/
def wsSplit (s : String) : List String :=
  (wordsAux s.data []).map (fun l => ⟨l⟩)

/-- Python `s.split(sep)` for a one-character separator. -/
def splitOnChar (sep : Char) : List Char → List (List Char)
  | [] => [[]]
  | c :: cs =>
    let r := splitOnChar sep cs
    if c = sep then [] :: r
    else
      match r with
      | [] => [[c]]
      | h :: t => (c :: h) :: t

/-- Python `sep.join(parts)`. -/
def joinSep (sep : String) : List String → String
  | [] => ""
  | [s] => s
  | s :: rest => s ++ sep ++ joinSep sep rest

/-! ### graph_etl.py: `compute_orphan_risk` (lines 277-283) -/

/-- `compute_orphan_risk(chunk_index, total_chunks)`:
`0.9` for sections of at most one chunk, otherwise
`0.2 + 0.6 * |index - midpoint| / max(1.0, midpoint)` with
`midpoint = (total_chunks - 1) / 2`. -/
def compute_orphan_risk (chunk_index total_chunks : Nat) : ℚ :=
  if total_chunks ≤ 1 then 9/10
  else
    let midpoint : ℚ := ((total_chunks : ℚ) - 1) / 2
    let distance : ℚ := |(chunk_index : ℚ) - midpoint|
    let normalized : ℚ := distance / max 1 midpoint
    2/10 + 6/10 * normalized

/-! ### graph_etl.py: `chunk_section_text` (lines 233-267)

The function is parametrised by the already-split sentence list and the
token counter (`split_sentences` / `Tokenizer.count` are external to the
windowing logic the claims are about).  The Python `while` loop is modelled
with explicit fuel: `chunkLoop fuel` returns `none` exactly when the loop
has not finished within `fuel` iterations. -/

/-- Inner packing loop (lines 249-251): greedily consume sentences from the
current suffix while the running token total stays within `chunk_tokens`.
Returns `(tokens_used, number of sentences consumed)`. -/
def packFrom : List Nat → Nat → Nat × Nat
  | [], _ => (0, 0)
  | t :: rest, budget =>
    if t ≤ budget then
      let p := packFrom rest (budget - t)
      (t + p.1, p.2 + 1)
    else (0, 0)

/-- Backward walk (lines 261-263): starting at `newCursor`, step back while
`newCursor > cursor` and the remaining overlap target is positive,
subtracting the token count of each sentence stepped over. -/
def walkBack (tokenized : List Nat) (cursor : Nat) : Nat → Int → Nat
  | 0, _ => 0
  | n + 1, target =>
    if cursor < n + 1 ∧ 0 < target then
      walkBack tokenized cursor n (target - (tokenized.getD n 0 : Int))
    else n + 1

/-- One iteration of the `while cursor < len(sentences)` loop
(lines 246-266).  Returns the emitted window together with `some` of the
next cursor, or `none` when the loop exits (`end >= len` or the
`cursor == end` stall guard). -/
def chunkStep (sentences : List String) (tokenized : List Nat)
    (chunkTokens overlapTokens : Nat) (cursor : Nat) :
    (String × Nat) × Option Nat :=
  let packed := packFrom (tokenized.drop cursor) chunkTokens
  let e0 := cursor + packed.2
  -- "if end == cursor": a single oversized sentence becomes its own chunk
  let used := if e0 = cursor then tokenized.getD cursor 0 else packed.1
  let e := if e0 = cursor then e0 + 1 else e0
  let chunkText := trimStr (joinSep " " ((sentences.drop cursor).take (e - cursor)))
  let window := (chunkText, used)
  if sentences.length ≤ e then (window, none)
  else
    let newCursor := walkBack tokenized cursor e (overlapTokens : Int)
    let cursor1 := max newCursor 0
    if cursor1 = e then (window, none) else (window, some cursor1)

/-- Fuel-indexed driver of the outer `while` loop; `none` means the fuel ran
out before the loop finished. -/
def chunkLoop (sentences : List String) (tokenized : List Nat)
    (chunkTokens overlapTokens : Nat) : Nat → Nat → Option (List (String × Nat))
  | 0, _ => none
  | fuel + 1, cursor =>
    if sentences.length ≤ cursor then some []
    else
      match chunkStep sentences tokenized chunkTokens overlapTokens cursor with
      | (w, none) => some [w]
      | (w, some c1) =>
        (chunkLoop sentences tokenized chunkTokens overlapTokens fuel c1).map (w :: ·)

/-- `chunk_section_text` over a sentence list and a token counter `tok`.
`overlap_tokens = max(1, int(chunk_tokens * overlap_ratio))`; the `int`
truncation equals the floor for the non-negative ratios of interest. -/
def chunk_section_text (sentences : List String) (tok : String → Nat)
    (chunkTokens : Nat) (overlapRatio : ℚ) (fuel : Nat) :
    Option (List (String × Nat)) :=
  if sentences = [] then some []
  else
    let tokenized := sentences.map tok
    let overlapTokens := max 1 (Int.toNat ⌊(chunkTokens : ℚ) * overlapRatio⌋)
    chunkLoop sentences tokenized chunkTokens overlapTokens fuel 0

/-- Failing input for the chunker: a one-token sentence followed by a
sentence too large to fit in the window. -/
def stallSentences : List String := ["Hi.", "LONG"]

/-- Token counter assigning 1 token to the short sentence and 1000 to the
long one (any model-aware tokenizer can produce such counts). -/
def stallTok (s : String) : Nat := if s = "Hi." then 1 else 1000

/-! ### memory_indexer.py: ingestion status updates (lines 202-288) -/

/-- One row of `memory_ingestions`: the fields touched by the indexer. -/
structure Ingestion where
  status : String
  error : Option String
  indexedChunks : Nat
  completedAt : Bool
deriving DecidableEq, Repr

/-- `mark_ingestions_indexing` (lines 202-221): the SQL `CASE` keeps
`'uploaded'` and `'failed'` and maps every other status to `'indexing'`. -/
def mark_ingestions_indexing (ing : Ingestion) : Ingestion :=
  { ing with
    status := if ing.status = "uploaded" ∨ ing.status = "failed" then ing.status
              else "indexing" }

/-- Error-message truncation of `mark_ingestions_failed` (lines 227-229):
default, strip, then cut to 400 characters. -/
def truncatedError (msg : Option String) : String :=
  let m := trimStr (msg.getD "Embedding failed")
  if 400 < m.length then ⟨m.data.take 400⟩ else m

/-- `mark_ingestions_failed` (lines 223-244). -/
def mark_ingestions_failed (ing : Ingestion) (msg : Option String) : Ingestion :=
  { ing with status := "failed", error := some (truncatedError msg), completedAt := true }

/-- `update_index_counts` for one ingestion (lines 254-287), parametrised by
`remaining`, the queried count of still-unembedded chunks.  Returns the
updated row and whether the ingestion was reported completed. -/
def update_index_counts (ing : Ingestion) (increment remaining : Nat) :
    Ingestion × Bool :=
  let ing1 : Ingestion :=
    { ing with
      indexedChunks := ing.indexedChunks + increment,
      status := if ing.status = "uploaded" ∨ ing.status = "failed" then ing.status
                else "indexing" }
  if remaining = 0 then ({ ing1 with status := "uploaded", completedAt := true }, true)
  else (ing1, false)

/-! ### user_memory_store.py: the `user_memories` table

Rows are kept in insertion order; soft deletion sets `deletedAt`.
`insert_user_memory` generates a fresh id; embeddings are external and are
not part of the modelled state (the claims do not mention them). -/

/-- One row of `user_memories`. -/
structure MemRow where
  id : Nat
  userId : String
  content : String
  sourceType : String
  sourceId : Option String
  scope : Option String
  confidence : Option ℚ
  createdAt : Int
  deletedAt : Option Int
deriving DecidableEq, Repr

/-- A fresh id, strictly larger than every id in the store. -/
def freshId (store : List MemRow) : Nat :=
  (store.map (·.id)).foldr max 0 + 1

/-- `insert_user_memory` (user_memory_store.py lines 38-77): append a new
non-deleted row and return its id. -/
def insert_user_memory (store : List MemRow) (userId content sourceType : String)
    (sourceId scope : Option String) (confidence : Option ℚ) (now : Int) :
    List MemRow × Nat :=
  let id := freshId store
  (store ++ [⟨id, userId, content, sourceType, sourceId, scope, confidence, now, none⟩], id)

/-- `get_user_memory_by_source` (lines 241-264): first non-deleted row with
matching user, source type, source id and scope (`IS NOT DISTINCT FROM` is
`Option` equality); `None` source ids never match. -/
def get_user_memory_by_source (store : List MemRow) (userId sourceType : String)
    (sourceId scope : Option String) : Option MemRow :=
  match sourceId with
  | none => none
  | some sid =>
    store.find? (fun r =>
      r.userId = userId && r.sourceType = sourceType && r.sourceId = some sid &&
      r.deletedAt = none && r.scope = scope)

/-- `find_user_memory_by_content` (lines 267-286). -/
def find_user_memory_by_content (store : List MemRow) (userId content sourceType : String)
    (scope : Option String) : Option Nat :=
  (store.find? (fun r =>
    r.userId = userId && r.sourceType = sourceType && r.content = content &&
    r.deletedAt = none && r.scope = scope)).map (·.id)

/-- `update_user_memory` (lines 289-311): rewrite content and confidence of
the row with the given id. -/
def update_user_memory (store : List MemRow) (id : Nat) (content : String)
    (confidence : Option ℚ) : List MemRow :=
  store.map (fun r => if r.id = id then { r with content := content, confidence := confidence } else r)

/-- `upsert_user_memory_from_source` (lines 314-337): three-way outcome
`skipped` / `updated` / `inserted`. -/
def upsert_user_memory_from_source (store : List MemRow)
    (userId content sourceType : String) (sourceId scope : Option String)
    (confidence : Option ℚ) (now : Int) : List MemRow × String :=
  match get_user_memory_by_source store userId sourceType sourceId scope with
  | some existing =>
    if existing.content = content then (store, "skipped")
    else (update_user_memory store existing.id content confidence, "updated")
  | none =>
    ((insert_user_memory store userId content sourceType sourceId scope confidence now).1,
     "inserted")

/-- The `WHERE` predicate of `delete_user_memories_not_in_sources`
(lines 370-379): non-deleted rows of the user and source type, matching
scope, with a non-null source id not in the given array. -/
def staleRow (userId sourceType : String) (sourceIds : List String)
    (scope : Option String) (r : MemRow) : Bool :=
  r.userId = userId && r.sourceType = sourceType && r.deletedAt = none &&
  r.scope = scope &&
  match r.sourceId with
  | none => false
  | some s => !(sourceIds.contains s)

/-- `delete_user_memories_not_in_sources` (lines 361-382): guarded no-op on
an empty id list, otherwise soft-delete every stale row. -/
def delete_user_memories_not_in_sources (store : List MemRow)
    (userId sourceType : String) (sourceIds : List String) (scope : Option String)
    (now : Int) : List MemRow × Nat :=
  if sourceIds = [] then (store, 0)
  else
    (store.map (fun r =>
       if staleRow userId sourceType sourceIds scope r then { r with deletedAt := some now } else r),
     (store.filter (staleRow userId sourceType sourceIds scope)).length)

/-- `delete_user_memories_by_ids` (lines 398-411). -/
def delete_user_memories_by_ids (store : List MemRow) (userId : String)
    (memoryIds : List Nat) (now : Int) : List MemRow × Nat :=
  if memoryIds = [] then (store, 0)
  else
    let hit := fun (r : MemRow) =>
      r.userId = userId && r.deletedAt = none && memoryIds.contains r.id
    (store.map (fun r => if hit r then { r with deletedAt := some now } else r),
     (store.filter hit).length)

/-! ### memory_ingestion.py: candidates, cleanup and condensation -/

/-- A `MemoryCandidate` (memory_ingestion.py lines 35-41). -/
structure Candidate where
  content : String
  sourceType : String
  sourceId : String
  confidence : ℚ
  scope : Option String
deriving DecidableEq, Repr

/-- `_truncate` (lines 44-47), `MAX_CONTENT_LENGTH = 2000`. -/
def truncateContent (s : String) : String :=
  if s.length ≤ 2000 then s else ⟨s.data.take 2000⟩ ++ "..."

/-- The keyword list of `_classify_sender` (lines 66-70). -/
def autoKeywords : List String :=
  ["noreply", "no-reply", "do-not-reply", "donotreply", "mailer-daemon",
   "notification", "notifications", "news", "newsletter", "updates",
   "support", "billing", "info@", "help@", "alerts", "digest", "system"]

/-- Free-mail domains treated as human senders (lines 83-87). -/
def humanDomains : List String :=
  ["gmail.com", "yahoo.com", "outlook.com", "hotmail.com",
   "icloud.com", "proton.me", "protonmail.com"]

/-- Python `token.strip("<>\"'()[]")`: drop those characters from both
ends.  (The quote and apostrophe are written by code point.) -/
def stripAngles (s : String) : String :=
  let cs : List Char := ['<', '>', Char.ofNat 34, Char.ofNat 39, '(', ')', '[', ']']
  ⟨((s.data.dropWhile (cs.contains ·)).reverse.dropWhile (cs.contains ·)).reverse⟩

/-- `_classify_sender` (lines 62-91). -/
def classifySender (sender : String) : String :=
  let lowered := lowerStr sender
  if lowered = "" then "unknown"
  else if autoKeywords.any (fun k => strContains lowered k) then "automated"
  else
    let emailTok := (wsSplit lowered).find? (fun tok => strContains tok "@" && strContains tok ".")
    let viaEmail : Option String :=
      match emailTok with
      | none => none
      | some tok =>
        let em := stripAngles tok
        let parts := splitOnChar '@' em.data
        let localPart : String := ⟨parts.headD []⟩
        if autoKeywords.any (fun k => strContains localPart k) then some "automated"
        else
          let domain : String := ⟨parts.getLastD []⟩
          if humanDomains.contains domain then some "human" else none
    match viaEmail with
    | some cls => cls
    | none =>
      if lowered.data.any Char.isAlpha && strContains lowered " " then "human"
      else "unknown"

/-- `_within_retention` (lines 94-100) with datetimes as epoch seconds:
promotions threads expire after 30 days, everything else after 365. -/
def withinRetention (category : Option String) (lastMessageAt : Option Int)
    (now : Int) : Bool :=
  match lastMessageAt with
  | none => true
  | some t =>
    let days : Int := if lowerStr (category.getD "") = "promotions" then 30 else 365
    now - days * 86400 ≤ t

/-- One Gmail thread summary as returned by the gateway. -/
structure GmailThread where
  threadId : String
  subject : String
  summary : String
  sender : String
  category : Option String
  mailbox : Option String
  lastMessageAt : Option Int
deriving DecidableEq, Repr

/-- The candidate-building loop of `_fetch_gmail_candidates`
(lines 111-145); the surrounding fetch and its failure flag are handled by
the caller. -/
def fetchGmailCandidates (threads : List GmailThread) (now : Int) : List Candidate :=
  threads.filterMap (fun t =>
    let subject := trimStr t.subject
    let summary := trimStr t.summary
    let sender := trimStr t.sender
    if t.threadId = "" || (subject = "" && summary = "") then none
    else if !withinRetention t.category t.lastMessageAt now then none
    else
      let senderType := classifySender sender
      let isPromotions := lowerStr (t.category.getD "") = "promotions"
      if !isPromotions && lowerStr (t.mailbox.getD "") ≠ "sent" && senderType = "automated"
      then none
      else
        let content := truncateContent (trimStr (subject ++ "\n" ++ summary ++ "\nFrom: " ++ sender))
        let base : ℚ := if isPromotions then 55/100 else 7/10
        let confidence : ℚ :=
          base - (if senderType = "automated" then 15/100
                  else if senderType = "unknown" then 5/100 else 0)
        some ⟨content, "gmail", t.threadId, confidence, some "extraction"⟩)

/-- The filter loop of `_fetch_chat_candidates` (lines 235-253) over the
LLM-extracted `(content, confidence)` items; `_chat_source_id`'s SHA-1 is
modelled by an injective tag. -/
def fetchChatCandidates (extracted : List (String × ℚ)) : List Candidate :=
  extracted.filterMap (fun it =>
    let content := trimStr it.1
    if content = "" then none
    else if it.2 < 7/10 then none
    else some ⟨truncateContent content, "chat", "sha1:" ++ truncateContent content,
               it.2, some "extraction"⟩)

/-- `_upsert_candidates` (lines 364-387): upsert each candidate in turn and
count the `(inserted, updated, skipped)` outcomes. -/
def upsertCandidates (store : List MemRow) (userId : String)
    (cands : List Candidate) (now : Int) : List MemRow × Nat × Nat × Nat :=
  cands.foldl
    (fun acc c =>
      let r := upsert_user_memory_from_source acc.1 userId c.content c.sourceType
                 (some c.sourceId) c.scope (some c.confidence) now
      (r.1,
       acc.2.1 + (if r.2 = "inserted" then 1 else 0),
       acc.2.2.1 + (if r.2 = "updated" then 1 else 0),
       acc.2.2.2 + (if r.2 = "skipped" then 1 else 0)))
    (store, 0, 0, 0)

/-- The store component of `_upsert_candidates`: the fold of the upserts
without the outcome counters. -/
def upsertStores (store : List MemRow) (userId : String) (cands : List Candidate)
    (now : Int) : List MemRow :=
  cands.foldl
    (fun s c => (upsert_user_memory_from_source s userId c.content c.sourceType
                  (some c.sourceId) c.scope (some c.confidence) now).1)
    store

/-- `_cleanup_stale_sources` (lines 390-407): skipped entirely unless the
fetch succeeded. -/
def cleanup_stale_sources (store : List MemRow) (userId sourceType : String)
    (sourceIds : List String) (enabled : Bool) (now : Int) : List MemRow × Nat :=
  if !enabled then (store, 0)
  else delete_user_memories_not_in_sources store userId sourceType sourceIds
         (some "extraction") now

/-- The row filter of `_fetch_condense_candidates` (lines 264-274). -/
def condenseRow (userId sourceType : String) (cutoff : Int) (r : MemRow) : Bool :=
  r.userId = userId && r.deletedAt = none && r.sourceType = sourceType &&
  r.scope = some "extraction" && r.createdAt < cutoff

/-- `_fetch_condense_candidates` (lines 256-277): matching rows ordered by
creation time, limited, projected to `(id, content)`. -/
def fetch_condense_candidates (store : List MemRow) (userId sourceType : String)
    (cutoff : Int) (lim : Nat) : List (Nat × String) :=
  (((store.filter (condenseRow userId sourceType cutoff)).mergeSort
      (fun a b => a.createdAt ≤ b.createdAt)).take lim).map (fun r => (r.id, r.content))

/-- `_condense_memories_for_source` (lines 320-361), parametrised by the
summaries the LLM oracle returned (`_summarize_memories` yields `[]` both
on failure and on an empty answer) and by the retention cutoff.  The
`condensed:<sha1>` source id is modelled with an injective tag.  Returns
the new store and the `(condensed, deleted)` counts. -/
def condense_memories_for_source (store : List MemRow) (userId sourceType : String)
    (summaries : List String) (cutoff now : Int) : List MemRow × Nat × Nat :=
  let items := fetch_condense_candidates store userId sourceType cutoff 30
  if items.length < 8 then (store, 0, 0)
  else if summaries = [] then (store, 0, 0)
  else
    let ins := (summaries.take 5).foldl
      (fun (acc : List MemRow × Nat) summary =>
        match find_user_memory_by_content acc.1 userId summary sourceType (some "condensed") with
        | some _ => acc
        | none =>
          ((insert_user_memory acc.1 userId summary sourceType
              (some ("condensed:" ++ summary)) (some "condensed") (some (85/100)) now).1,
           acc.2 + 1))
      (store, 0)
    if ins.2 = 0 then (ins.1, 0, 0)
    else
      let del := delete_user_memories_by_ids ins.1 userId (items.map (·.1)) now
      (del.1, ins.2, del.2)

/-! ### similarity_graph.py: greedy degree-capped pair acceptance
(`sync_similarity_neighbors_for_ingestions`, lines 128-181)

The neighbor queries are external; the embedded state machine consumes the
stream of candidate pairs exactly as the nested `for` loops do. -/

/-- One candidate neighbor pair as seen by the acceptance loop: the two
chunk ids, the cosine score, and the two graph-node ids used for the
degree accounting. -/
structure PairCand where
  srcChunk : String
  tgtChunk : String
  score : ℚ
  srcNode : String
  tgtNode : String
deriving DecidableEq, Repr

/-- State of the acceptance loop: `degree_count`, `seen_pairs`,
`edge_specs`. -/
structure SimState where
  degreeCount : List (String × Nat)
  seenPairs : List (String × String)
  edgeSpecs : List (String × String × ℚ)
deriving DecidableEq, Repr

/-- `degree_count[node]` with `defaultdict(int)` semantics. -/
def degOf (d : List (String × Nat)) (n : String) : Nat :=
  (alookup d n).getD 0

/-- `degree_count[node] += 1`. -/
def bumpDeg (d : List (String × Nat)) (n : String) : List (String × Nat) :=
  aupsert d n (· + 1) 0

/-- Python `tuple(sorted((a, b)))` on two strings. -/
def sortPair (a b : String) : String × String :=
  if a ≤ b then (a, b) else (b, a)

/-- The body of the candidate loop (lines 146-162): drop low scores, drop
already-seen unordered pairs, reject pairs whose endpoints reached the
degree cap, otherwise record the pair and bump both degrees. -/
def simStep (minScore : ℚ) (degreeCap : Nat) (st : SimState) (c : PairCand) : SimState :=
  if c.score < minScore then st
  else
    let pair := sortPair c.srcChunk c.tgtChunk
    if st.seenPairs.contains pair then st
    else if degreeCap ≤ degOf st.degreeCount c.srcNode ∨
            degreeCap ≤ degOf st.degreeCount c.tgtNode then st
    else
      { degreeCount := bumpDeg (bumpDeg st.degreeCount c.srcNode) c.tgtNode,
        seenPairs := st.seenPairs ++ [pair],
        edgeSpecs := st.edgeSpecs ++ [(c.srcChunk, c.tgtChunk, c.score)] }

/-- Run the acceptance loop over all candidates of one ingestion. -/
def runSim (minScore : ℚ) (degreeCap : Nat) (cands : List PairCand) : SimState :=
  cands.foldl (simStep minScore degreeCap) ⟨[], [], []⟩

/-- Number of accepted edges incident to graph node `n`, where `nodeOf`
maps chunk ids to their graph-node ids. -/
def incidentCount (nodeOf : String → String) (edges : List (String × String × ℚ))
    (n : String) : Nat :=
  edges.countP (fun e => nodeOf e.1 = n || nodeOf e.2.1 = n)

/-! ### memory_tools.py: RRF merge and budget-constrained context
(`_rrf_merge` lines 12-27, `get_context_with_budget` lines 76-121) -/

/-- `schemas.Memory`. -/
structure Memory where
  id : String
  content : String
  source : String
deriving DecidableEq, Repr

/-- The `(item.source, item.content)` identity key. -/
def memKey (m : Memory) : String × String :=
  (m.source, m.content)

/-- The `scores` dict after one channel: for each `(rank, item)` (rank is
`enumerate(group, start=1)`), add `1/(constant + rank)` to the key's
running total (`constant = 60` at every call site). -/
def scoreGroup (scores : List ((String × String) × ℚ)) (g : List Memory) :
    List ((String × String) × ℚ) :=
  g.enum.foldl
    (fun acc p => aupsert acc (memKey p.2) (· + 1 / (60 + ((p.1 : ℚ) + 1))) 0)
    scores

/-- The full `scores` dict of `_rrf_merge`. -/
def buildScores (groups : List (List Memory)) : List ((String × String) × ℚ) :=
  groups.foldl scoreGroup []

/-- The `id_for_key` dict: first-seen-wins over the same iteration order. -/
def buildIds (groups : List (List Memory)) : List ((String × String) × String) :=
  groups.foldl (fun acc g => g.enum.foldl (fun a p => ainsertNew a (memKey p.2) p.2.id) acc) []

/-- An item's fused score (`scores[key]`, 0 for unseen keys). -/
def rrfScore (groups : List (List Memory)) (key : String × String) : ℚ :=
  (alookup (buildScores groups) key).getD 0

/-- The keys of the `scores` dict, in first-seen order. -/
def rrfKeys (groups : List (List Memory)) : List (String × String) :=
  (buildScores groups).map (·.1)

/-- `sorted(scores.keys(), key=lambda key: scores[key], reverse=True)`:
Python's sort is stable, so this is a stable merge sort under the
"score not below" comparison. -/
def rrfSorted (groups : List (List Memory)) : List (String × String) :=
  (rrfKeys groups).mergeSort (fun a b => rrfScore groups b ≤ rrfScore groups a)

/-- `_rrf_merge(groups, k)`: top `k` keys rebuilt into `Memory` values with
the first-seen id. -/
def rrf_merge (groups : List (List Memory)) (k : Nat) : List Memory :=
  ((rrfSorted groups).take k).map
    (fun key => ⟨(alookup (buildIds groups) key).getD "", key.2, key.1⟩)

/-- The formatted context line of `get_context_with_budget` (line 114). -/
def contextLine (m : Memory) : String :=
  "- [" ++ m.source ++ "] [id: " ++ m.id ++ "] " ++ m.content

/-- The accumulation loop (lines 110-118): take lines while
`total_chars + len(line) + 1` stays within `max_chars`, breaking at the
first line that does not fit. -/
def trimLines (maxChars : Nat) : List Memory → Nat → List String
  | [], _ => []
  | m :: rest, totalChars =>
    let line := contextLine m
    if maxChars < totalChars + line.length + 1 then []
    else line :: trimLines maxChars rest (totalChars + line.length + 1)

/-- Python `"\n".join`. -/
def joinNL (sections : List String) : String :=
  joinSep "\n" sections

/-- The string assembly of `get_context_with_budget` (lines 109-121) given
the RRF-merged list: budget `max_chars = max_tokens * 4`, a fixed header,
and the joined accepted lines. -/
def get_context_with_budget (merged : List Memory) (maxTokens : Nat) : String :=
  let sections := trimLines (maxTokens * 4) merged 0
  if sections = [] then "No stored context found."
  else "Relevant context (id for forget):\n" ++ joinNL sections

/-! ### Concrete fixtures used by witnesses and counterexamples -/

/-- A promotions-category Gmail thread from an unclassifiable sender
(`classifySender` returns `"unknown"`): penalized confidence
`0.55 - 0.05 = 0.5`. -/
def promoThread : GmailThread :=
  ⟨"T1", "Sale", "Half price", "x9", some "promotions", some "inbox", none⟩

/-- An extraction-scope Gmail memory whose source id is in the fetched
enumeration of the stale-cleanup scenario. -/
def rowA : MemRow := ⟨1, "u", "memory a", "gmail", some "A", some "extraction", none, 0, none⟩

/-- An extraction-scope Gmail memory whose source id is absent from the
fetched enumeration of the stale-cleanup scenario. -/
def rowB : MemRow := ⟨2, "u", "memory b", "gmail", some "B", some "extraction", none, 0, none⟩

/-- The same `(source, content)` surfaced by a first channel. -/
def memA : Memory := ⟨"a", "c", "s"⟩

/-- The same `(source, content)` surfaced by a second channel under a
different stable id. -/
def memB : Memory := ⟨"b", "c", "s"⟩

/-- First item of a single-channel RRF example. -/
def memX : Memory := ⟨"x", "c1", "s"⟩

/-- Second item (rank 2) of a single-channel RRF example. -/
def memY : Memory := ⟨"y", "c2", "s"⟩

/-- Two channels returning the same single item at rank 1. -/
def cgTwo : List (List Memory) := [[memA], [memB]]

/-- One channel returning two items. -/
def cgOne : List (List Memory) := [[memX, memY]]

/-- A single short memory for the budget counterexample. -/
def tinyMem : Memory := ⟨"i", "c", "s"⟩

/-- A fully-connected candidate set over three chunks. -/
def simCands : List PairCand :=
  [⟨"a", "b", 1, "A", "B"⟩, ⟨"a", "c", 1, "A", "C"⟩, ⟨"b", "c", 1, "B", "C"⟩]

/-- The chunk-to-node mapping of the three-chunk fixture. -/
def simNodeOf : String → String :=
  fun s => if s = "a" then "A" else if s = "b" then "B" else "C"

/-- Position of the first occurrence of an element in a list (used to state
the stable tie-break by first-seen order). -/
def posIn {α : Type} [DecidableEq α] : List α → α → Nat
  | [], _ => 0
  | k :: t, key => if k = key then 0 else posIn t key + 1

/-- A channel's contribution to a key's fused score: `1/(60 + r)` for each
1-based rank `r` at which the key occurs in the channel, 0 where absent. -/
def groupContrib (g : List Memory) (key : String × String) : ℚ :=
  (g.enum.map (fun p => if memKey p.2 = key then 1 / (60 + ((p.1 : ℚ) + 1)) else 0)).sum

/-- Verification invariant of the similarity-graph acceptance loop: degrees
are capped, each accepted edge is counted in the degrees of its endpoints,
and the canonical pairs of the accepted edges are distinct and recorded in
`seen_pairs`. -/
def simInv (cap : Nat) (nodeOf : String → String) (st : SimState) : Prop :=
  (∀ n, degOf st.degreeCount n ≤ cap) ∧
  (∀ n, incidentCount nodeOf st.edgeSpecs n ≤ degOf st.degreeCount n) ∧
  ((st.edgeSpecs.map (fun e => sortPair e.1 e.2.1)).Nodup ∧
    ∀ p ∈ st.edgeSpecs.map (fun e => sortPair e.1 e.2.1), p ∈ st.seenPairs)

/-! ## Theorems -/

/-! ### Association-list lemmas -/

theorem alookup_nil {κ β : Type} [DecidableEq κ] (key : κ) :
    alookup ([] : List (κ × β)) key = none := rfl

theorem alookup_cons {κ β : Type} [DecidableEq κ] (k : κ) (v : β) (t : List (κ × β)) (key : κ) :
    alookup ((k, v) :: t) key = if k = key then some v else alookup t key := rfl

theorem alookup_aupsert_self {κ β : Type} [DecidableEq κ]
    (l : List (κ × β)) (k : κ) (f : β → β) (d : β) :
    alookup (aupsert l k f d) k = some (f ((alookup l k).getD d)) := by
  induction l with
  | nil => simp [aupsert, alookup]
  | cons p t ih =>
    obtain ⟨k1, v⟩ := p
    by_cases h : k1 = k
    · subst h; simp [aupsert, alookup]
    · simp [aupsert, alookup, h, ih]

theorem alookup_aupsert_ne {κ β : Type} [DecidableEq κ]
    (l : List (κ × β)) (k : κ) (f : β → β) (d : β) (key : κ) (h : key ≠ k) :
    alookup (aupsert l k f d) key = alookup l key := by
  have hk : ¬ k = key := Ne.symm h
  induction l with
  | nil => simp [aupsert, alookup, hk]
  | cons p t ih =>
    obtain ⟨k1, v⟩ := p
    by_cases h1 : k1 = k
    · subst h1; simp [aupsert, alookup, hk]
    · by_cases h2 : k1 = key <;> simp [aupsert, alookup, h1, h2, hk, h, ih]

theorem keys_aupsert {κ β : Type} [DecidableEq κ]
    (l : List (κ × β)) (k : κ) (f : β → β) (d : β) :
    (aupsert l k f d).map (·.1)
      = if (alookup l k).isSome then l.map (·.1) else l.map (·.1) ++ [k] := by
  induction l with
  | nil => simp [aupsert, alookup]
  | cons p t ih =>
    obtain ⟨k1, v⟩ := p
    by_cases h : k1 = k
    · subst h; simp [aupsert, alookup]
    · simp only [aupsert, if_neg h, alookup, List.map_cons, ih]
      by_cases hs : (alookup t k).isSome <;> simp [hs, h]

theorem alookup_isSome_iff {κ β : Type} [DecidableEq κ] (l : List (κ × β)) (k : κ) :
    (alookup l k).isSome ↔ k ∈ l.map (·.1) := by
  induction l with
  | nil => simp [alookup]
  | cons p t ih =>
    obtain ⟨k1, v⟩ := p
    by_cases h : k1 = k
    · subst h; simp [alookup]
    · simp [alookup, h, Ne.symm h, ih]

theorem alookup_ainsertNew {κ β : Type} [DecidableEq κ]
    (l : List (κ × β)) (k : κ) (v : β) (key : κ) :
    alookup (ainsertNew l k v) key
      = match alookup l key with
        | some w => some w
        | none => if k = key then some v else none := by
  induction l with
  | nil => simp [ainsertNew, alookup]
  | cons p t ih =>
    obtain ⟨k1, w⟩ := p
    by_cases h : k1 = k
    · subst h
      by_cases h2 : k1 = key
      · subst h2; simp [ainsertNew, alookup]
      · cases halt : alookup t key <;> simp [ainsertNew, alookup, h2, halt]
    · by_cases h2 : k1 = key
      · subst h2; simp [ainsertNew, alookup, h]
      · simp [ainsertNew, alookup, h, h2, ih]

/-! ### C8 — orphan risk -/

/-- C8 counterexample: in a two-chunk section the code divides by
`max(1.0, midpoint) = 1`, not by `midpoint = 0.5`, so chunk 0 scores
`0.5` while the claimed formula `0.2 + 0.6 * |0 - 0.5| / 0.5` gives
`0.8`. -/
theorem c8_counterexample :
    compute_orphan_risk 0 2 = 1/2 ∧
    2/10 + 6/10 * |(0 : ℚ) - ((2 : ℚ) - 1) / 2| / (((2 : ℚ) - 1) / 2) = 8/10 ∧
    (1/2 : ℚ) ≠ 8/10 := by
  refine ⟨?_, ?_, by norm_num⟩
  · norm_num [compute_orphan_risk]
    rw [abs_of_nonneg (by norm_num : (0 : ℚ) ≤ 1/2)]
    norm_num
  · rw [show |(0 : ℚ) - ((2 : ℚ) - 1) / 2| = 1/2 by rw [abs_of_nonpos] <;> norm_num]
    norm_num

/-- C8 (amended): `compute_orphan_risk i n` is
`0.2 + 0.6 * |i - m| / max 1 m` with `m = (n-1)/2`; the claimed formula
(division by `m` itself) holds for sections of at least three chunks,
where additionally the boundary chunks score `0.8`, the center of an
odd-length section scores `0.2`, and single-chunk sections score `0.9`. -/
theorem c8_orphan_risk (i n : Nat) (h : 3 ≤ n) :
    compute_orphan_risk i n
        = 2/10 + 6/10 * |(i : ℚ) - ((n : ℚ) - 1) / 2| / (((n : ℚ) - 1) / 2) ∧
    compute_orphan_risk 0 n = 8/10 ∧
    compute_orphan_risk (n - 1) n = 8/10 ∧
    (n % 2 = 1 → compute_orphan_risk ((n - 1) / 2) n = 2/10) ∧
    (∀ m : Nat, m ≤ 1 → compute_orphan_risk i m = 9/10) := by
  have h3 : (3 : ℚ) ≤ (n : ℚ) := by exact_mod_cast h
  have hm1 : (1 : ℚ) ≤ ((n : ℚ) - 1) / 2 := by linarith
  have hm0 : ((n : ℚ) - 1) / 2 ≠ 0 := by linarith
  have hmax : max (1 : ℚ) (((n : ℚ) - 1) / 2) = ((n : ℚ) - 1) / 2 := max_eq_right hm1
  have hn1 : ¬ n ≤ 1 := by omega
  refine ⟨?_, ?_, ?_, ?_, ?_⟩
  · simp only [compute_orphan_risk, if_neg hn1, hmax]
    ring
  · simp only [compute_orphan_risk, if_neg hn1, hmax]
    rw [show |((0 : Nat) : ℚ) - ((n : ℚ) - 1) / 2| = ((n : ℚ) - 1) / 2 by
      rw [Nat.cast_zero, zero_sub, abs_neg, abs_of_nonneg (by linarith)]]
    rw [div_self hm0]
    norm_num
  · simp only [compute_orphan_risk, if_neg hn1, hmax]
    have hcast : ((n - 1 : Nat) : ℚ) = (n : ℚ) - 1 := by
      rw [Nat.cast_sub (by omega : 1 ≤ n), Nat.cast_one]
    rw [hcast, show (n : ℚ) - 1 - ((n : ℚ) - 1) / 2 = ((n : ℚ) - 1) / 2 by ring]
    rw [abs_of_nonneg (by linarith), div_self hm0]
    norm_num
  · intro hodd
    obtain ⟨c, hc⟩ : ∃ c, n = 2 * c + 1 := ⟨n / 2, by omega⟩
    subst hc
    have hdiv : (2 * c + 1 - 1) / 2 = c := by omega
    rw [hdiv]
    simp only [compute_orphan_risk, if_neg hn1, hmax]
    rw [show ((2 * c + 1 : Nat) : ℚ) - 1 = 2 * (c : ℚ) by push_cast; ring]
    rw [show (2 * (c : ℚ)) / 2 = (c : ℚ) by ring, sub_self, abs_zero]
    norm_num
  · intro m hmle
    simp [compute_orphan_risk, hmle]

/-- C8 witness at `n = 3`. -/
theorem c8_orphan_risk_witness :
    compute_orphan_risk 1 3
        = 2/10 + 6/10 * |(1 : ℚ) - ((3 : ℚ) - 1) / 2| / (((3 : ℚ) - 1) / 2) ∧
    compute_orphan_risk 0 3 = 8/10 ∧
    compute_orphan_risk 1 3 = 2/10 ∧
    compute_orphan_risk 0 1 = 9/10 := by
  obtain ⟨h1, h2, _, h4, h5⟩ := c8_orphan_risk 1 3 (by norm_num)
  exact ⟨h1, h2, h4 (by norm_num), h5 1 le_rfl⟩

/-! ### C7 — ingestion status transitions -/

/-- C7 counterexample: claiming an embedding batch for an ingestion whose
status is `'uploaded'` leaves it `'uploaded'` (the SQL `CASE` preserves
`'uploaded'` and `'failed'`); it does not become `'indexing'`. -/
theorem c7_counterexample :
    (mark_ingestions_indexing ⟨"uploaded", none, 0, false⟩).status = "uploaded" ∧
    (mark_ingestions_indexing ⟨"uploaded", none, 0, false⟩).status ≠ "indexing" := by
  constructor <;> decide

/-- C7 (amended): claiming a batch moves any status other than the
preserved `'uploaded'` / `'failed'` to `'indexing'`; when zero chunks of
the ingestion remain unembedded its status becomes `'uploaded'` (terminal
success) and it is reported completed; an unrecoverable embedding error
forces `'failed'` with an error message of at most 400 characters. -/
theorem c7_status_transitions (ing : Ingestion) (msg : Option String) (inc rem : Nat) :
    (ing.status ≠ "uploaded" → ing.status ≠ "failed" →
      (mark_ingestions_indexing ing).status = "indexing") ∧
    (ing.status = "uploaded" ∨ ing.status = "failed" →
      mark_ingestions_indexing ing = ing) ∧
    (rem = 0 → (update_index_counts ing inc rem).1.status = "uploaded" ∧
      (update_index_counts ing inc rem).2 = true) ∧
    (rem ≠ 0 → ing.status ≠ "uploaded" → ing.status ≠ "failed" →
      (update_index_counts ing inc rem).1.status = "indexing" ∧
      (update_index_counts ing inc rem).2 = false) ∧
    (mark_ingestions_failed ing msg).status = "failed" ∧
    ((mark_ingestions_failed ing msg).error.getD "").length ≤ 400 := by
  have herr : (truncatedError msg).length ≤ 400 := by
    unfold truncatedError
    by_cases h : 400 < (trimStr (msg.getD "Embedding failed")).length
    · simp only [if_pos h]
      show (List.take 400 _).length ≤ 400
      simp [List.length_take]
    · simp only [if_neg h]
      omega
  refine ⟨?_, ?_, ?_, ?_, ?_, ?_⟩
  · intro h1 h2
    simp [mark_ingestions_indexing, h1, h2]
  · intro h
    simp [mark_ingestions_indexing, h]
  · intro h
    subst h
    simp [update_index_counts]
  · intro h h1 h2
    simp [update_index_counts, h, h1, h2]
  · rfl
  · simpa [mark_ingestions_failed] using herr

/-- C7 witness: a `'processing'` ingestion is claimed into `'indexing'`,
completes into `'uploaded'`, and failure messages stay within 400
characters. -/
theorem c7_status_transitions_witness :
    (mark_ingestions_indexing ⟨"processing", none, 0, false⟩).status = "indexing" ∧
    (update_index_counts ⟨"indexing", none, 3, false⟩ 2 0).1.status = "uploaded" ∧
    (mark_ingestions_failed ⟨"indexing", none, 3, false⟩ (some "boom")).status = "failed" := by
  obtain ⟨h1, _, _, _, _, _⟩ :=
    c7_status_transitions ⟨"processing", none, 0, false⟩ (some "boom") 2 0
  obtain ⟨_, _, h3, _, h5, _⟩ :=
    c7_status_transitions ⟨"indexing", none, 3, false⟩ (some "boom") 2 0
  exact ⟨h1 (by decide) (by decide), (h3 rfl).1, h5⟩

/-! ### C10 — empty enumeration is a guarded no-op -/

/-- C10: `delete_user_memories_not_in_sources` with an empty source-id
list returns 0 and changes nothing, so a successful fetch with zero
candidates leaves every existing memory untouched. -/
theorem c10_empty_enumeration_no_op (store : List MemRow)
    (userId sourceType : String) (scope : Option String) (now : Int) :
    delete_user_memories_not_in_sources store userId sourceType [] scope now = (store, 0) ∧
    cleanup_stale_sources store userId sourceType [] true now = (store, 0) := by
  constructor <;> rfl

/-! ### C6 lemmas — the upsert pipeline -/

theorem upsertCandidates_fst (userId : String) (now : Int) :
    ∀ (cands : List Candidate) (store : List MemRow) (i u k : Nat),
      (cands.foldl
        (fun acc c =>
          let r := upsert_user_memory_from_source acc.1 userId c.content c.sourceType
                    (some c.sourceId) c.scope (some c.confidence) now
          (r.1,
           acc.2.1 + (if r.2 = "inserted" then 1 else 0),
           acc.2.2.1 + (if r.2 = "updated" then 1 else 0),
           acc.2.2.2 + (if r.2 = "skipped" then 1 else 0)))
        (store, i, u, k)).1 = upsertStores store userId cands now := by
  intro cands
  induction cands with
  | nil => intro store i u k; rfl
  | cons c rest ih =>
    intro store i u k
    simp only [List.foldl_cons, upsertStores]
    exact ih _ _ _ _

theorem upsert_establishes (store : List MemRow) (userId content sourceType : String)
    (sid : String) (scope : Option String) (confidence : Option ℚ) (now : Int) :
    ∃ r ∈ (upsert_user_memory_from_source store userId content sourceType
            (some sid) scope confidence now).1,
      r.userId = userId ∧ r.sourceType = sourceType ∧ r.sourceId = some sid ∧
      r.scope = scope ∧ r.deletedAt = none := by
  unfold upsert_user_memory_from_source
  cases hg : get_user_memory_by_source store userId sourceType (some sid) scope with
  | none =>
    refine ⟨⟨freshId store, userId, content, sourceType, some sid, scope, confidence, now, none⟩,
            ?_, rfl, rfl, rfl, rfl, rfl⟩
    simp [insert_user_memory]
  | some ex =>
    have hfind : store.find? (fun r =>
        r.userId = userId && r.sourceType = sourceType && r.sourceId = some sid &&
        r.deletedAt = none && r.scope = scope) = some ex := by
      simpa [get_user_memory_by_source] using hg
    have hmem : ex ∈ store := List.mem_of_find?_eq_some hfind
    have hpred := List.find?_some hfind
    simp only [Bool.and_eq_true, decide_eq_true_eq] at hpred
    obtain ⟨⟨⟨⟨hu, hst⟩, hsid⟩, hdel⟩, hsc⟩ := hpred
    dsimp only
    by_cases hc : ex.content = content
    · rw [if_pos hc]
      exact ⟨ex, hmem, hu, hst, hsid, hsc, hdel⟩
    · rw [if_neg hc]
      refine ⟨{ ex with content := content, confidence := confidence },
              ?_, hu, hst, hsid, hsc, hdel⟩
      have : (fun r : MemRow =>
          if r.id = ex.id then { r with content := content, confidence := confidence } else r) ex
          = { ex with content := content, confidence := confidence } := by simp
      exact this ▸ List.mem_map_of_mem _ hmem

theorem upsert_preserves (store : List MemRow) (userId content2 sourceType2 : String)
    (sid2 : Option String) (scope2 : Option String) (confidence2 : Option ℚ) (now : Int)
    (userId1 sourceType1 sid1 : String) (scope1 : Option String)
    (h : ∃ r ∈ store, r.userId = userId1 ∧ r.sourceType = sourceType1 ∧
          r.sourceId = some sid1 ∧ r.scope = scope1 ∧ r.deletedAt = none) :
    ∃ r ∈ (upsert_user_memory_from_source store userId content2 sourceType2
            sid2 scope2 confidence2 now).1,
      r.userId = userId1 ∧ r.sourceType = sourceType1 ∧ r.sourceId = some sid1 ∧
      r.scope = scope1 ∧ r.deletedAt = none := by
  obtain ⟨r, hmem, hprops⟩ := h
  unfold upsert_user_memory_from_source
  cases hg : get_user_memory_by_source store userId sourceType2 sid2 scope2 with
  | none =>
    exact ⟨r, by simp [insert_user_memory, List.mem_append, hmem], hprops⟩
  | some ex =>
    dsimp only
    by_cases hc : ex.content = content2
    · rw [if_pos hc]
      exact ⟨r, hmem, hprops⟩
    · rw [if_neg hc]
      by_cases hid : r.id = ex.id
      · refine ⟨{ r with content := content2, confidence := confidence2 },
                ?_, hprops.1, hprops.2.1, hprops.2.2.1, hprops.2.2.2.1, hprops.2.2.2.2⟩
        have : (fun r : MemRow =>
            if r.id = ex.id then { r with content := content2, confidence := confidence2 }
            else r) r = { r with content := content2, confidence := confidence2 } := by
          simp [hid]
        exact this ▸ List.mem_map_of_mem _ hmem
      · refine ⟨r, ?_, hprops⟩
        have : (fun r : MemRow =>
            if r.id = ex.id then { r with content := content2, confidence := confidence2 }
            else r) r = r := by simp [hid]
        exact this ▸ List.mem_map_of_mem _ hmem

theorem upsertStores_preserves (userId : String) (now : Int)
    (userId1 sourceType1 sid1 : String) (scope1 : Option String) :
    ∀ (cands : List Candidate) (store : List MemRow),
      (∃ r ∈ store, r.userId = userId1 ∧ r.sourceType = sourceType1 ∧
        r.sourceId = some sid1 ∧ r.scope = scope1 ∧ r.deletedAt = none) →
      ∃ r ∈ upsertStores store userId cands now,
        r.userId = userId1 ∧ r.sourceType = sourceType1 ∧ r.sourceId = some sid1 ∧
        r.scope = scope1 ∧ r.deletedAt = none := by
  intro cands
  induction cands with
  | nil => intro store h; exact h
  | cons c rest ih =>
    intro store h
    exact ih _ (upsert_preserves store userId c.content c.sourceType (some c.sourceId)
      c.scope (some c.confidence) now userId1 sourceType1 sid1 scope1 h)

theorem upsertStores_establishes (userId : String) (now : Int) :
    ∀ (cands : List Candidate) (store : List MemRow) (c : Candidate), c ∈ cands →
      ∃ r ∈ upsertStores store userId cands now,
        r.userId = userId ∧ r.sourceType = c.sourceType ∧ r.sourceId = some c.sourceId ∧
        r.scope = c.scope ∧ r.deletedAt = none := by
  intro cands
  induction cands with
  | nil => intro store c hc; exact absurd hc (List.not_mem_nil c)
  | cons c1 rest ih =>
    intro store c hc
    rcases List.mem_cons.mp hc with h1 | h1
    · subst h1
      exact upsertStores_preserves userId now userId c.sourceType c.sourceId c.scope rest _
        (upsert_establishes store userId c.content c.sourceType c.sourceId c.scope
          (some c.confidence) now)
    · exact ih _ c h1

theorem gmail_fetch_shape (threads : List GmailThread) (now : Int) :
    ∀ c ∈ fetchGmailCandidates threads now,
      c.sourceType = "gmail" ∧ c.scope = some "extraction" := by
  intro c hc
  unfold fetchGmailCandidates at hc
  obtain ⟨t, _, hf⟩ := List.mem_filterMap.mp hc
  dsimp only at hf
  split_ifs at hf <;>
    (obtain rfl := Option.some.inj hf; exact ⟨rfl, rfl⟩)

/-! ### C4 — stale-source cleanup -/

/-- C4 counterexample: with a successful fetch whose enumeration is empty,
the guard `if not source_ids: return 0` leaves a memory with an absent
source id (`"B"` is not in the empty enumeration) un-deleted, contradicting
the claim's universal "absent ⟹ soft-deleted". -/
theorem c4_counterexample :
    ¬ (∀ r ∈ (cleanup_stale_sources [rowB] "u" "gmail" [] true 5).1,
        r.sourceId = some "B" → "B" ∉ ([] : List String) → r.deletedAt ≠ none) := by
  intro h
  exact absurd rfl (h rowB (by decide) rfl (by decide))

/-- C4 (amended): when the fetch succeeded and the enumeration is
non-empty, every non-deleted extraction-scope memory of the source type
whose (non-null) source id is absent from the enumeration is soft-deleted,
every memory whose source id is present is kept unchanged, and a failed
fetch skips cleanup entirely; the empty enumeration is a guarded no-op. -/
theorem c4_stale_cleanup (store : List MemRow) (userId sourceType : String)
    (sourceIds : List String) (now : Int) (hne : sourceIds ≠ []) :
    (∀ r ∈ store, r.userId = userId → r.sourceType = sourceType →
        r.scope = some "extraction" → r.deletedAt = none →
        ∀ s, r.sourceId = some s → s ∉ sourceIds →
        { r with deletedAt := some now }
          ∈ (cleanup_stale_sources store userId sourceType sourceIds true now).1) ∧
    (∀ r ∈ store, ∀ s, r.sourceId = some s → s ∈ sourceIds →
        r ∈ (cleanup_stale_sources store userId sourceType sourceIds true now).1) ∧
    (cleanup_stale_sources store userId sourceType sourceIds false now = (store, 0)) := by
  refine ⟨?_, ?_, rfl⟩
  · intro r hr h1 h2 h3 h4 s h5 h6
    have hstale : staleRow userId sourceType sourceIds (some "extraction") r = true := by
      simp [staleRow, h1, h2, h3, h4, h5, h6]
    have : (fun r =>
        if staleRow userId sourceType sourceIds (some "extraction") r then
          { r with deletedAt := some now } else r) r = { r with deletedAt := some now } := by
      simp [hstale]
    rw [show (cleanup_stale_sources store userId sourceType sourceIds true now).1
          = store.map (fun r =>
              if staleRow userId sourceType sourceIds (some "extraction") r then
                { r with deletedAt := some now } else r) by
      simp [cleanup_stale_sources, delete_user_memories_not_in_sources, hne]]
    exact this ▸ List.mem_map_of_mem _ hr
  · intro r hr s h5 h6
    have hstale : staleRow userId sourceType sourceIds (some "extraction") r = false := by
      simp [staleRow, h5, h6]
    have : (fun r =>
        if staleRow userId sourceType sourceIds (some "extraction") r then
          { r with deletedAt := some now } else r) r = r := by
      simp [hstale]
    rw [show (cleanup_stale_sources store userId sourceType sourceIds true now).1
          = store.map (fun r =>
              if staleRow userId sourceType sourceIds (some "extraction") r then
                { r with deletedAt := some now } else r) by
      simp [cleanup_stale_sources, delete_user_memories_not_in_sources, hne]]
    exact this ▸ List.mem_map_of_mem _ hr

/-- C4 witness: Gmail memories {A, B} with a fetch returning {A}: B is
soft-deleted, A is untouched. -/
theorem c4_stale_cleanup_witness :
    { rowB with deletedAt := some 5 }
      ∈ (cleanup_stale_sources [rowA, rowB] "u" "gmail" ["A"] true 5).1 ∧
    rowA ∈ (cleanup_stale_sources [rowA, rowB] "u" "gmail" ["A"] true 5).1 := by
  obtain ⟨h1, h2, _⟩ := c4_stale_cleanup [rowA, rowB] "u" "gmail" ["A"] 5 (by decide)
  exact ⟨h1 rowB (by decide) rfl rfl rfl rfl "B" rfl (by decide),
         h2 rowA (by decide) "A" rfl (by decide)⟩

/-! ### C2 — the sliding window can stall -/

/-- C2 (code bug): with the default parameters `chunk_tokens = 768`,
`overlap_ratio = 0.18` and a section of two sentences whose token counts
are `[1, 1000]`, the loop body maps cursor `0` back to cursor `0` (the
backward walk stops at the previous start before the `cursor == end`
guard can fire), so the window start never advances and
`chunk_section_text` never terminates: the fuelled loop fails for every
amount of fuel. -/
theorem c2_chunker_stalls :
    (∀ fuel, chunk_section_text stallSentences stallTok 768 (18/100) fuel = none) ∧
    stallSentences.map stallTok = [1, 1000] ∧
    (chunkStep stallSentences [1, 1000] 768 138 0).2 = some 0 := by
  have htok : stallSentences.map stallTok = [1, 1000] := by decide
  have hov : max 1 (Int.toNat ⌊((768 : Nat) : ℚ) * (18/100)⌋) = 138 := by
    rw [show ((768 : Nat) : ℚ) * (18/100) = 3456/25 by norm_num]
    rw [show ⌊(3456/25 : ℚ)⌋ = 138 by
      rw [Int.floor_eq_iff]
      constructor <;> norm_num]
    rfl
  have hstep : ∃ w, chunkStep stallSentences [1, 1000] 768 138 0 = (w, some 0) :=
    ⟨_, rfl⟩
  obtain ⟨w, hw⟩ := hstep
  have hloop : ∀ fuel, chunkLoop stallSentences [1, 1000] 768 138 fuel 0 = none := by
    intro fuel
    induction fuel with
    | zero => rfl
    | succ n ih =>
      rw [chunkLoop, if_neg (by decide), hw]
      simp [ih]
  refine ⟨?_, htok, by rw [hw]⟩
  intro fuel
  have hrw : chunk_section_text stallSentences stallTok 768 (18/100) fuel
      = chunkLoop stallSentences (stallSentences.map stallTok) 768
          (max 1 (Int.toNat ⌊((768 : Nat) : ℚ) * (18/100)⌋)) fuel 0 := by
    simp only [chunk_section_text]
    rw [if_neg (by decide)]
  rw [hrw, htok, hov, hloop]

/-! ### C5 — budget-constrained context assembly -/

theorem trimLines_budget (mc : Nat) :
    ∀ (l : List Memory) (t : Nat), trimLines mc l t ≠ [] →
      t + (joinNL (trimLines mc l t)).length + 1 ≤ mc := by
  intro l
  induction l with
  | nil => intro t h; exact absurd rfl h
  | cons m rest ih =>
    intro t h
    by_cases hg : mc < t + (contextLine m).length + 1
    · rw [trimLines, if_pos hg] at h
      exact absurd rfl h
    · rw [trimLines, if_neg hg] at h ⊢
      push_neg at hg
      cases hrest : trimLines mc rest (t + (contextLine m).length + 1) with
      | nil =>
        simp only [hrest, joinNL, joinSep]
        omega
      | cons s ss =>
        have hne : trimLines mc rest (t + (contextLine m).length + 1) ≠ [] := by
          rw [hrest]; simp
        have hih := ih (t + (contextLine m).length + 1) hne
        rw [hrest] at hih
        simp only [hrest, joinNL, joinSep]
        rw [show (contextLine m ++ "\n" ++ joinSep "\n" (s :: ss)).length
              = (contextLine m).length + 1 + (joinSep "\n" (s :: ss)).length by
          rw [String.length_append, String.length_append,
              show ("\n" : String).length = 1 from rfl]]
        simp only [joinNL] at hih
        omega

theorem trimLines_prefix (mc : Nat) :
    ∀ (l : List Memory) (t : Nat),
      ∃ n, trimLines mc l t = (l.map contextLine).take n := by
  intro l
  induction l with
  | nil => intro t; exact ⟨0, rfl⟩
  | cons m rest ih =>
    intro t
    by_cases hg : mc < t + (contextLine m).length + 1
    · exact ⟨0, by rw [trimLines, if_pos hg]; rfl⟩
    · obtain ⟨n, hn⟩ := ih (t + (contextLine m).length + 1)
      exact ⟨n + 1, by rw [trimLines, if_neg hg, hn]; rfl⟩

/-- C5 counterexample: with `max_tokens = 4` (budget `16` characters) and a
single-item merged list, the accepted line fits the budget but the
returned string carries the uncounted 34-character header
`"Relevant context (id for forget):\n"`, so its length `49` exceeds
`4 * max_tokens = 16`. -/
theorem c5_counterexample :
    ¬ (get_context_with_budget [tinyMem] 4).length ≤ 4 * 4 := by
  decide

/-- C5 (amended): the accumulated body (each line plus its separator)
never exceeds the `4 * max_tokens` character budget — accumulation stops
at the first line that would exceed it and lines are never split — so the
returned string is at most `4 * max_tokens + 33` characters (the fixed
header accounts for the excess), and the listed entries are a clean
prefix of the RRF-ranked merged list. -/
theorem c5_budget_trimming (groups : List (List Memory)) (k maxTokens : Nat) :
    (get_context_with_budget (rrf_merge groups k) maxTokens).length
        ≤ 4 * maxTokens + 33 ∧
    (∃ n, trimLines (maxTokens * 4) (rrf_merge groups k) 0
        = ((rrf_merge groups k).map contextLine).take n) := by
  constructor
  · unfold get_context_with_budget
    cases hsec : trimLines (maxTokens * 4) (rrf_merge groups k) 0 with
    | nil =>
      simp only [if_pos rfl]
      show ("No stored context found." : String).length ≤ 4 * maxTokens + 33
      have : ("No stored context found." : String).length = 24 := by decide
      omega
    | cons s ss =>
      have hne : trimLines (maxTokens * 4) (rrf_merge groups k) 0 ≠ [] := by
        rw [hsec]; simp
      have hb := trimLines_budget (maxTokens * 4) (rrf_merge groups k) 0 hne
      rw [hsec] at hb
      have hred : (let sections := s :: ss;
          if sections = [] then "No stored context found."
          else "Relevant context (id for forget):\n" ++ joinNL sections)
          = "Relevant context (id for forget):\n" ++ joinNL (s :: ss) := by simp
      rw [hred, String.length_append,
          show ("Relevant context (id for forget):\n" : String).length = 34 from rfl]
      omega
  · exact trimLines_prefix (maxTokens * 4) (rrf_merge groups k) 0

/-! ### C3 — condensation is additive-then-subtractive -/

theorem fetch_condense_length (store : List MemRow) (userId sourceType : String)
    (cutoff : Int) (lim : Nat) :
    (fetch_condense_candidates store userId sourceType cutoff lim).length
      = min lim (store.filter (condenseRow userId sourceType cutoff)).length := by
  simp [fetch_condense_candidates]

/-- C3: if fewer than 8 extraction-scope memories older than the cutoff
exist for the source type, or the LLM summarizer returned an empty list,
condensation leaves the store unchanged and reports `(0, 0)`; and whenever
any original memory was soft-deleted (`deleted > 0`), at least one
condensed memory had been inserted first (`condensed > 0`). -/
theorem c3_condensation (store : List MemRow) (userId sourceType : String)
    (summaries : List String) (cutoff now : Int) :
    ((store.filter (condenseRow userId sourceType cutoff)).length < 8 →
      condense_memories_for_source store userId sourceType summaries cutoff now
        = (store, 0, 0)) ∧
    (summaries = [] →
      condense_memories_for_source store userId sourceType summaries cutoff now
        = (store, 0, 0)) ∧
    (∀ store2 condensed deleted,
      condense_memories_for_source store userId sourceType summaries cutoff now
        = (store2, condensed, deleted) →
      0 < deleted → 0 < condensed) := by
  have hlen := fetch_condense_length store userId sourceType cutoff 30
  refine ⟨?_, ?_, ?_⟩
  · intro h
    have h8 : (fetch_condense_candidates store userId sourceType cutoff 30).length < 8 := by
      omega
    unfold condense_memories_for_source
    rw [if_pos h8]
  · intro h
    subst h
    unfold condense_memories_for_source
    by_cases h8 : (fetch_condense_candidates store userId sourceType cutoff 30).length < 8
    · rw [if_pos h8]
    · rw [if_neg h8, if_pos rfl]
  · intro store2 condensed deleted heq hd
    unfold condense_memories_for_source at heq
    by_cases h8 : (fetch_condense_candidates store userId sourceType cutoff 30).length < 8
    · rw [if_pos h8] at heq
      have : deleted = 0 := by
        have := congrArg (·.2.2) heq
        simpa using this.symm
      omega
    · rw [if_neg h8] at heq
      by_cases hs : summaries = []
      · rw [if_pos hs] at heq
        have : deleted = 0 := by
          have := congrArg (·.2.2) heq
          simpa using this.symm
        omega
      · rw [if_neg hs] at heq
        set ins := (summaries.take 5).foldl
          (fun (acc : List MemRow × Nat) summary =>
            match find_user_memory_by_content acc.1 userId summary sourceType (some "condensed") with
            | some _ => acc
            | none =>
              ((insert_user_memory acc.1 userId summary sourceType
                  (some ("condensed:" ++ summary)) (some "condensed") (some (85/100)) now).1,
               acc.2 + 1))
          (store, 0) with hins
        by_cases hz : ins.2 = 0
        · rw [if_pos hz] at heq
          have : deleted = 0 := by
            have := congrArg (·.2.2) heq
            simpa using this.symm
          omega
        · rw [if_neg hz] at heq
          have : condensed = ins.2 := by
            have := congrArg (·.2.1) heq
            simpa using this.symm
          omega

/-- C3 witness: an empty store (zero qualifying memories) with a non-empty
summary list condenses to no change. -/
theorem c3_condensation_witness :
    condense_memories_for_source [] "u" "gmail" ["a fact"] 0 0 = ([], 0, 0) := by
  obtain ⟨h1, _, _⟩ := c3_condensation [] "u" "gmail" ["a fact"] 0 0
  exact h1 (by decide)

/-! ### C6 — the confidence threshold does not gate mail candidates -/

/-- C6 counterexample: a promotions thread from an unclassifiable sender
yields a candidate with penalized confidence `0.55 - 0.05 = 0.5 < 0.7`,
and the nightly pipeline upserts it into `user_memories` anyway — no
downstream threshold filters it. -/
theorem c6_counterexample :
    ∃ c ∈ fetchGmailCandidates [promoThread] 0,
      c.confidence < 7/10 ∧
      ∃ r ∈ (upsertCandidates [] "u" (fetchGmailCandidates [promoThread] 0) 0).1,
        r.sourceType = "gmail" ∧ r.sourceId = some c.sourceId ∧
        r.confidence = some c.confidence ∧ r.deletedAt = none := by
  have hfetch : fetchGmailCandidates [promoThread] 0
      = [⟨"Sale\nHalf price\nFrom: x9", "gmail", "T1", 55/100 - 5/100, some "extraction"⟩] :=
    rfl
  have hups : (upsertCandidates [] "u" (fetchGmailCandidates [promoThread] 0) 0).1
      = [⟨1, "u", "Sale\nHalf price\nFrom: x9", "gmail", some "T1", some "extraction",
          some (55/100 - 5/100), 0, none⟩] := rfl
  refine ⟨⟨"Sale\nHalf price\nFrom: x9", "gmail", "T1", 55/100 - 5/100, some "extraction"⟩,
          by rw [hfetch]; exact List.mem_singleton.mpr rfl, ?_,
          ⟨1, "u", "Sale\nHalf price\nFrom: x9", "gmail", some "T1", some "extraction",
           some (55/100 - 5/100), 0, none⟩,
          by rw [hups]; exact List.mem_singleton.mpr rfl, rfl, rfl, rfl, rfl⟩
  show (55/100 : ℚ) - 5/100 < 7/10
  norm_num

/-- C6 (amended): only chat candidates are gated by the 0.7 confidence
threshold (every chat candidate that survives extraction has confidence at
least 0.7); gmail candidates receive the sender penalties but are upserted
into `user_memories` regardless of their resulting confidence — after the
pipeline runs, every fetched gmail candidate (sub-threshold ones included)
has a matching live row. -/
theorem c6_confidence_threshold :
    (∀ (extracted : List (String × ℚ)) (c : Candidate),
      c ∈ fetchChatCandidates extracted → 7/10 ≤ c.confidence) ∧
    (∀ (threads : List GmailThread) (fetchNow : Int) (store : List MemRow)
        (userId : String) (now : Int) (c : Candidate),
      c ∈ fetchGmailCandidates threads fetchNow →
      ∃ r ∈ (upsertCandidates store userId (fetchGmailCandidates threads fetchNow) now).1,
        r.userId = userId ∧ r.sourceType = "gmail" ∧ r.sourceId = some c.sourceId ∧
        r.scope = some "extraction" ∧ r.deletedAt = none) := by
  constructor
  · intro extracted c hc
    unfold fetchChatCandidates at hc
    obtain ⟨it, _, hf⟩ := List.mem_filterMap.mp hc
    dsimp only at hf
    split_ifs at hf with h1 h2
    · obtain rfl := Option.some.inj hf
      exact le_of_not_lt h2
  · intro threads fetchNow store userId now c hc
    obtain ⟨hst, hsc⟩ := gmail_fetch_shape threads fetchNow c hc
    have hfst : (upsertCandidates store userId (fetchGmailCandidates threads fetchNow) now).1
        = upsertStores store userId (fetchGmailCandidates threads fetchNow) now := by
      unfold upsertCandidates
      exact upsertCandidates_fst userId now (fetchGmailCandidates threads fetchNow) store 0 0 0
    rw [hfst]
    have := upsertStores_establishes userId now (fetchGmailCandidates threads fetchNow)
      store c hc
    rw [hst, hsc] at this
    exact this

/-- C6 witness: a surviving chat candidate has confidence `0.8 ≥ 0.7`, and
the sub-threshold promotions candidate of the counterexample scenario ends
up stored. -/
theorem c6_confidence_threshold_witness :
    (7/10 : ℚ) ≤ 4/5 ∧
    ∃ r ∈ (upsertCandidates [] "u" (fetchGmailCandidates [promoThread] 0) 0).1,
      r.userId = "u" ∧ r.sourceType = "gmail" ∧ r.sourceId = some "T1" ∧
      r.scope = some "extraction" ∧ r.deletedAt = none := by
  obtain ⟨h1, h2⟩ := c6_confidence_threshold
  constructor
  · refine h1 [("a fact", 4/5)]
      ⟨"a fact", "chat", "sha1:" ++ "a fact", 4/5, some "extraction"⟩ ?_
    unfold fetchChatCandidates
    refine List.mem_filterMap.mpr ⟨("a fact", 4/5), by simp, ?_⟩
    dsimp only
    rw [if_neg (by decide : ¬ (trimStr "a fact" = "")),
        if_neg (by norm_num : ¬ ((4/5 : ℚ) < 7/10))]
    rfl
  · exact h2 [promoThread] 0 [] "u" 0
      ⟨"Sale\nHalf price\nFrom: x9", "gmail", "T1", 55/100 - 5/100, some "extraction"⟩
      (by rw [show fetchGmailCandidates [promoThread] 0
            = [⟨"Sale\nHalf price\nFrom: x9", "gmail", "T1", 55/100 - 5/100,
                some "extraction"⟩] from rfl]
          exact List.mem_singleton.mpr rfl)

/-! ### C9 — similarity-graph degree cap -/

theorem degOf_bumpDeg (d : List (String × Nat)) (n m : String) :
    degOf (bumpDeg d n) m = if m = n then degOf d m + 1 else degOf d m := by
  by_cases h : m = n
  · subst h
    simp [degOf, bumpDeg, alookup_aupsert_self]
  · simp [degOf, bumpDeg, alookup_aupsert_ne d n _ _ m h, h]

theorem simStep_inv (minScore : ℚ) (cap : Nat) (nodeOf : String → String)
    (c : PairCand) (st : SimState)
    (hc : c.srcNode = nodeOf c.srcChunk ∧ c.tgtNode = nodeOf c.tgtChunk ∧
          c.srcNode ≠ c.tgtNode)
    (h : simInv cap nodeOf st) :
    simInv cap nodeOf (simStep minScore cap st c) := by
  obtain ⟨hsrc, htgt, hne⟩ := hc
  obtain ⟨h1, h2, h3, h4⟩ := h
  unfold simStep
  dsimp only
  split_ifs with hs hp hdeg
  · exact ⟨h1, h2, h3, h4⟩
  · exact ⟨h1, h2, h3, h4⟩
  · exact ⟨h1, h2, h3, h4⟩
  · push_neg at hdeg
    obtain ⟨hd1, hd2⟩ := hdeg
    refine ⟨?_, ?_, ?_, ?_⟩
    · intro n
      simp only [degOf_bumpDeg]
      rcases eq_or_ne n c.tgtNode with hnt | hnt
      · subst hnt
        rw [if_pos rfl, if_neg (Ne.symm hne)]
        omega
      · rw [if_neg hnt]
        rcases eq_or_ne n c.srcNode with hns | hns
        · subst hns
          rw [if_pos rfl]
          omega
        · rw [if_neg hns]
          exact h1 n
    · intro n
      have hlen : incidentCount nodeOf (st.edgeSpecs ++ [(c.srcChunk, c.tgtChunk, c.score)]) n
          = incidentCount nodeOf st.edgeSpecs n
            + (if nodeOf c.srcChunk = n ∨ nodeOf c.tgtChunk = n then 1 else 0) := by
        simp only [incidentCount, List.countP_append]
        congr 1
        rcases Classical.em (nodeOf c.srcChunk = n) with h1c | h1c
        · simp [List.countP_cons, h1c]
        · rcases Classical.em (nodeOf c.tgtChunk = n) with h2c | h2c
          · simp [List.countP_cons, h1c, h2c]
          · simp [List.countP_cons, h1c, h2c]
      rw [hlen, ← hsrc, ← htgt]
      have h2n := h2 n
      simp only [degOf_bumpDeg]
      rcases eq_or_ne n c.tgtNode with hnt | hnt
      · subst hnt
        rw [if_pos (Or.inr rfl), if_pos rfl, if_neg (Ne.symm hne)]
        omega
      · rcases eq_or_ne n c.srcNode with hns | hns
        · subst hns
          rw [if_pos (Or.inl rfl), if_neg hnt, if_pos rfl]
          omega
        · rw [if_neg (by
              rintro (h | h)
              · exact hns h.symm
              · exact hnt h.symm),
            if_neg hnt, if_neg hns]
          omega
    · simp only [List.map_append, List.map_cons, List.map_nil]
      rw [List.nodup_append]
      refine ⟨h3, List.nodup_singleton _, ?_⟩
      intro p hpmem
      have hseen := h4 p hpmem
      simp only [List.mem_singleton]
      intro hpe
      subst hpe
      exact absurd (List.elem_eq_true_of_mem hseen) (by simpa [List.contains] using hp)
    · intro p hpmem
      simp only [List.map_append, List.map_cons, List.map_nil] at hpmem
      rcases List.mem_append.mp hpmem with hold | hnew
      · exact List.mem_append_left _ (h4 p hold)
      · exact List.mem_append_right _ hnew

/-- C9: for every candidate stream (a fully-connected one included), as
long as the two endpoints of each candidate are distinct graph nodes (the
chunk-to-node mapping `nodeOf` is consistent), the greedy acceptance loop
never lets any node's degree counter exceed `degree_cap`, the number of
accepted edges incident to any node never exceeds `degree_cap`, and each
unordered chunk pair is materialized at most once. -/
theorem c9_degree_cap (minScore : ℚ) (cap : Nat) (cands : List PairCand)
    (nodeOf : String → String)
    (hc : ∀ c ∈ cands, c.srcNode = nodeOf c.srcChunk ∧ c.tgtNode = nodeOf c.tgtChunk ∧
          c.srcNode ≠ c.tgtNode) :
    (∀ n, degOf (runSim minScore cap cands).degreeCount n ≤ cap) ∧
    (∀ n, incidentCount nodeOf (runSim minScore cap cands).edgeSpecs n ≤ cap) ∧
    ((runSim minScore cap cands).edgeSpecs.map (fun e => sortPair e.1 e.2.1)).Nodup := by
  have key : ∀ (l : List PairCand),
      (∀ c ∈ l, c.srcNode = nodeOf c.srcChunk ∧ c.tgtNode = nodeOf c.tgtChunk ∧
        c.srcNode ≠ c.tgtNode) →
      ∀ st, simInv cap nodeOf st → simInv cap nodeOf (l.foldl (simStep minScore cap) st) := by
    intro l
    induction l with
    | nil => intro _ st h; exact h
    | cons c rest ih =>
      intro hl st h
      simp only [List.foldl_cons]
      exact ih (fun x hx => hl x (List.mem_cons_of_mem c hx)) _
        (simStep_inv minScore cap nodeOf c st (hl c (List.mem_cons_self c rest)) h)
  have hinit : simInv cap nodeOf ⟨[], [], []⟩ := by
    refine ⟨?_, ?_, ?_, ?_⟩
    · intro n; simp [degOf, alookup]
    · intro n; simp [incidentCount]
    · simp
    · intro p hp; simp at hp
  obtain ⟨h1, h2, h3, _⟩ := key cands hc ⟨[], [], []⟩ hinit
  exact ⟨h1, fun n => le_trans (h2 n) (h1 n), h3⟩

/-- C9 witness: three fully-connected chunks under `degree_cap = 1`. -/
theorem c9_degree_cap_witness :
    degOf (runSim (1/2) 1 simCands).degreeCount "A" ≤ 1 ∧
    incidentCount simNodeOf (runSim (1/2) 1 simCands).edgeSpecs "A" ≤ 1 ∧
    ((runSim (1/2) 1 simCands).edgeSpecs.map (fun e => sortPair e.1 e.2.1)).Nodup := by
  obtain ⟨h1, h2, h3⟩ := c9_degree_cap (1/2) 1 simCands simNodeOf (by decide)
  exact ⟨h1 "A", h2 "A", h3⟩

/-! ### C1 lemmas — the RRF scores dict -/

theorem getD_aupsert_add (l : List ((String × String) × ℚ)) (k key : String × String)
    (v : ℚ) :
    ((alookup (aupsert l k (· + v) 0) key).getD 0)
      = (alookup l key).getD 0 + (if k = key then v else 0) := by
  by_cases h : k = key
  · subst h
    rw [alookup_aupsert_self]
    cases halt : alookup l k <;> simp
  · rw [alookup_aupsert_ne l k _ _ key (Ne.symm h), if_neg h]
    ring

theorem scoreFold_getD (key : String × String) :
    ∀ (l : List (Nat × Memory)) (acc : List ((String × String) × ℚ)),
      (alookup (l.foldl
          (fun a p => aupsert a (memKey p.2) (· + 1 / (60 + ((p.1 : ℚ) + 1))) 0) acc) key).getD 0
        = (alookup acc key).getD 0
          + (l.map (fun p => if memKey p.2 = key then 1 / (60 + ((p.1 : ℚ) + 1)) else 0)).sum := by
  intro l
  induction l with
  | nil => intro acc; simp
  | cons p t ih =>
    intro acc
    rw [List.foldl_cons, ih, getD_aupsert_add, List.map_cons, List.sum_cons]
    ring

theorem buildScores_getD (key : String × String) :
    ∀ (gs : List (List Memory)) (acc : List ((String × String) × ℚ)),
      (alookup (gs.foldl scoreGroup acc) key).getD 0
        = (alookup acc key).getD 0 + (gs.map (fun g => groupContrib g key)).sum := by
  intro gs
  induction gs with
  | nil => intro acc; simp
  | cons g rest ih =>
    intro acc
    rw [List.foldl_cons, ih, List.map_cons, List.sum_cons]
    show (alookup (scoreGroup acc g) key).getD 0 + _ = _
    rw [scoreGroup, scoreFold_getD]
    show _ = (alookup acc key).getD 0 + (groupContrib g key + _)
    rw [groupContrib]
    ring

theorem rrfScore_eq_sum (groups : List (List Memory)) (key : String × String) :
    rrfScore groups key = (groups.map (fun g => groupContrib g key)).sum := by
  rw [rrfScore, buildScores, buildScores_getD]
  simp [alookup]

theorem keys_scoreFold_nodup :
    ∀ (l : List (Nat × Memory)) (acc : List ((String × String) × ℚ)),
      (acc.map (·.1)).Nodup →
      ((l.foldl (fun a p => aupsert a (memKey p.2) (· + 1 / (60 + ((p.1 : ℚ) + 1))) 0)
        acc).map (·.1)).Nodup := by
  intro l
  induction l with
  | nil => intro acc h; exact h
  | cons p t ih =>
    intro acc h
    rw [List.foldl_cons]
    apply ih
    rw [keys_aupsert]
    by_cases hs : (alookup acc (memKey p.2)).isSome
    · rw [if_pos hs]; exact h
    · rw [if_neg hs]
      have hnot : memKey p.2 ∉ acc.map (·.1) := fun hmem =>
        hs ((alookup_isSome_iff acc (memKey p.2)).mpr hmem)
      simp [List.nodup_append, h, hnot]

theorem rrfKeys_nodup (groups : List (List Memory)) : (rrfKeys groups).Nodup := by
  rw [rrfKeys, buildScores]
  have : ∀ (gs : List (List Memory)) (acc : List ((String × String) × ℚ)),
      (acc.map (·.1)).Nodup → ((gs.foldl scoreGroup acc).map (·.1)).Nodup := by
    intro gs
    induction gs with
    | nil => intro acc h; exact h
    | cons g rest ih =>
      intro acc h
      rw [List.foldl_cons]
      exact ih _ (keys_scoreFold_nodup _ acc h)
  exact this groups [] (by simp)

theorem keys_scoreFold_subset :
    ∀ (l : List (Nat × Memory)) (acc : List ((String × String) × ℚ))
      (key : String × String),
      key ∈ ((l.foldl (fun a p => aupsert a (memKey p.2) (· + 1 / (60 + ((p.1 : ℚ) + 1))) 0)
        acc).map (·.1)) →
      key ∈ acc.map (·.1) ∨ ∃ p ∈ l, memKey p.2 = key := by
  intro l
  induction l with
  | nil => intro acc key h; exact Or.inl h
  | cons p t ih =>
    intro acc key h
    rw [List.foldl_cons] at h
    rcases ih _ key h with h1 | h1
    · rw [keys_aupsert] at h1
      by_cases hs : (alookup acc (memKey p.2)).isSome
      · rw [if_pos hs] at h1; exact Or.inl h1
      · rw [if_neg hs] at h1
        rcases List.mem_append.mp h1 with h2 | h2
        · exact Or.inl h2
        · exact Or.inr ⟨p, List.mem_cons_self p t, (List.mem_singleton.mp h2).symm⟩
    · obtain ⟨q, hq, hqk⟩ := h1
      exact Or.inr ⟨q, List.mem_cons_of_mem p hq, hqk⟩

theorem rrfKeys_occurs (groups : List (List Memory)) (key : String × String)
    (h : key ∈ rrfKeys groups) : ∃ m ∈ groups.flatten, memKey m = key := by
  rw [rrfKeys, buildScores] at h
  have main : ∀ (gs : List (List Memory)) (acc : List ((String × String) × ℚ)),
      key ∈ ((gs.foldl scoreGroup acc).map (·.1)) →
      key ∈ acc.map (·.1) ∨ ∃ m ∈ gs.flatten, memKey m = key := by
    intro gs
    induction gs with
    | nil => intro acc h1; exact Or.inl h1
    | cons g rest ih =>
      intro acc h1
      rw [List.foldl_cons] at h1
      rcases ih _ h1 with h2 | h2
      · rcases keys_scoreFold_subset g.enum acc key h2 with h3 | h3
        · exact Or.inl h3
        · obtain ⟨p, hp, hpk⟩ := h3
          refine Or.inr ⟨p.2, ?_, hpk⟩
          rw [List.flatten_cons]
          exact List.mem_append_left _ (by
            obtain ⟨hlt, hval⟩ := List.mem_enum hp
            exact hval ▸ g.getElem_mem hlt)
      · obtain ⟨m, hm, hmk⟩ := h2
        refine Or.inr ⟨m, ?_, hmk⟩
        rw [List.flatten_cons]
        exact List.mem_append_right _ hm
  rcases main groups [] h with h1 | h1
  · simp at h1
  · exact h1

theorem idFold_alookup (key : String × String) :
    ∀ (l : List (Nat × Memory)) (acc : List ((String × String) × String)),
      alookup (l.foldl (fun a p => ainsertNew a (memKey p.2) p.2.id) acc) key
        = match alookup acc key with
          | some w => some w
          | none => (l.find? (fun p => memKey p.2 = key)).map (fun p => p.2.id) := by
  intro l
  induction l with
  | nil => intro acc; cases halt : alookup acc key <;> simp [halt]
  | cons p t ih =>
    intro acc
    rw [List.foldl_cons, ih, alookup_ainsertNew]
    cases halt : alookup acc key with
    | some w => simp
    | none =>
      by_cases hk : memKey p.2 = key
      · rw [if_pos hk, List.find?_cons_of_pos _ (by simpa using hk)]
        simp
      · rw [if_neg hk, List.find?_cons_of_neg _ (by simpa using hk)]

theorem enum_find?_snd (pred : Memory → Bool) :
    ∀ (g : List Memory) (i : Nat),
      ((g.enumFrom i).find? (fun p => pred p.2)).map (·.2) = g.find? pred := by
  intro g
  induction g with
  | nil => intro i; rfl
  | cons m t ih =>
    intro i
    rw [List.enumFrom_cons]
    by_cases hm : pred m
    · rw [List.find?_cons_of_pos _ (by simpa using hm), List.find?_cons_of_pos _ hm]
      rfl
    · rw [List.find?_cons_of_neg _ (by simpa using hm), List.find?_cons_of_neg _ hm]
      exact ih (i + 1)

theorem buildIds_alookup (groups : List (List Memory)) (key : String × String) :
    alookup (buildIds groups) key
      = (groups.flatten.find? (fun m => memKey m = key)).map (·.id) := by
  have main : ∀ (gs : List (List Memory)) (acc : List ((String × String) × String)),
      alookup (gs.foldl
          (fun acc g => g.enum.foldl (fun a p => ainsertNew a (memKey p.2) p.2.id) acc)
          acc) key
        = match alookup acc key with
          | some w => some w
          | none => (gs.flatten.find? (fun m => memKey m = key)).map (·.id) := by
    intro gs
    induction gs with
    | nil => intro acc; cases halt : alookup acc key <;> simp [halt]
    | cons g rest ih =>
      intro acc
      rw [List.foldl_cons, ih, idFold_alookup, List.flatten_cons, List.find?_append]
      cases halt : alookup acc key with
      | some w => simp
      | none =>
        have hg : (g.enum.find? (fun p => memKey p.2 = key)).map (fun p => p.2.id)
            = (g.find? (fun m => memKey m = key)).map (·.id) := by
          rw [show g.enum = g.enumFrom 0 from rfl, ← enum_find?_snd, Option.map_map]
          rfl
        simp only [hg]
        cases hfg : g.find? (fun m => memKey m = key) <;>
          simp [Option.or, hfg]
  rw [buildIds, main]
  simp [alookup]

/-- Python's `sorted(keys, key=score, reverse=True)` is a stable merge sort
under the "score not below" comparison: the output is pairwise ordered by
strictly-greater score, with ties kept in input order.  `l.indexOf` recovers
an element's input position since the input has no duplicates. -/
theorem posIn_eq_indexOf {α : Type} [DecidableEq α] (l : List α) (a : α) :
    posIn l a = l.indexOf a := by
  induction l with
  | nil => rfl
  | cons k t ih =>
    by_cases h : k = a
    · subst h
      rw [List.indexOf_cons_self]
      simp [posIn]
    · rw [List.indexOf_cons_ne t h]
      simp [posIn, h, ih]

theorem stable_sort_pairwise {α : Type} [DecidableEq α] (score : α → ℚ) (l : List α)
    (hnd : l.Nodup) :
    (l.mergeSort (fun a b => score b ≤ score a)).Pairwise
      (fun a b => score b < score a ∨ (score a = score b ∧ posIn l a < posIn l b)) := by
  have htrans : ∀ (a b c : α),
      (fun a b => decide (score b ≤ score a)) a b →
      (fun a b => decide (score b ≤ score a)) b c →
      (fun a b => decide (score b ≤ score a)) a c := by
    intro a b c h1 h2
    simp only [decide_eq_true_eq] at *
    exact le_trans h2 h1
  have htotal : ∀ (a b : α),
      (fun a b => decide (score b ≤ score a)) a b ||
      (fun a b => decide (score b ≤ score a)) b a := by
    intro a b
    simp only [Bool.or_eq_true, decide_eq_true_eq]
    exact le_total (score b) (score a)
  have henum := @List.sorted_mergeSort (Nat × α)
    (List.enumLE (fun a b => decide (score b ≤ score a)))
    (List.enumLE_trans htrans) (List.enumLE_total htotal) l.enum
  have hperm := List.mergeSort_perm l.enum
    (List.enumLE (fun a b => decide (score b ≤ score a)))
  have hnd_enum : l.enum.Nodup := by
    have h1 : (l.enum.map Prod.fst).Nodup := by
      rw [List.enum_map_fst]
      exact List.nodup_range _
    exact h1.of_map
  have hndE : (l.enum.mergeSort
      (List.enumLE (fun a b => decide (score b ≤ score a)))).Nodup :=
    hperm.nodup_iff.mpr hnd_enum
  rw [← List.mergeSort_enum, List.pairwise_map]
  refine (henum.and hndE).imp_of_mem ?_
  intro a b ha hb hab
  obtain ⟨hEnum, hne⟩ := hab
  have haen : a ∈ l.enum := List.mem_mergeSort.mp ha
  have hben : b ∈ l.enum := List.mem_mergeSort.mp hb
  have hagd := List.mem_enum_iff_getElem?.mp haen
  have hbgd := List.mem_enum_iff_getElem?.mp hben
  obtain ⟨halt, hagl⟩ := List.getElem?_eq_some.mp hagd
  obtain ⟨hblt, hbgl⟩ := List.getElem?_eq_some.mp hbgd
  have haidx : posIn l a.2 = a.1 := by
    rw [posIn_eq_indexOf]
    have := List.indexOf_getElem hnd a.1 halt
    rwa [hagl] at this
  have hbidx : posIn l b.2 = b.1 := by
    rw [posIn_eq_indexOf]
    have := List.indexOf_getElem hnd b.1 hblt
    rwa [hbgl] at this
  unfold List.enumLE at hEnum
  by_cases hab1 : decide (score b.2 ≤ score a.2) = true
  · rw [if_pos hab1] at hEnum
    have hba : score b.2 ≤ score a.2 := by simpa using hab1
    by_cases hab2 : decide (score a.2 ≤ score b.2) = true
    · rw [if_pos hab2] at hEnum
      have hablv : score a.2 ≤ score b.2 := by simpa using hab2
      right
      refine ⟨le_antisymm hablv hba, ?_⟩
      rw [haidx, hbidx]
      have hle : a.1 ≤ b.1 := by simpa using hEnum
      rcases lt_or_eq_of_le hle with h | h
      · exact h
      · exfalso
        apply hne
        have : a.2 = b.2 := by
          rw [h] at hagd
          rw [hagd] at hbgd
          exact Option.some.inj hbgd
        exact Prod.ext h this
    · left
      have : ¬ score a.2 ≤ score b.2 := by simpa using hab2
      exact lt_of_le_of_ne hba (fun e => this (le_of_eq e.symm))
  · rw [if_neg hab1] at hEnum
    exact absurd hEnum (by simp)

theorem contrib_sum_zero (key : String × String) :
    ∀ (l : List (Nat × Memory)), key ∉ l.map (fun p => memKey p.2) →
      (l.map (fun p => if memKey p.2 = key then 1 / (60 + ((p.1 : ℚ) + 1)) else 0)).sum = 0 := by
  intro l
  induction l with
  | nil => intro _; rfl
  | cons p t ih =>
    intro h
    rw [List.map_cons] at h
    rw [List.map_cons, List.sum_cons,
      if_neg (fun hk => h (by rw [← hk]; exact List.mem_cons_self _ _)),
      ih (fun hmem => h (List.mem_cons_of_mem _ hmem))]
    ring

theorem contrib_of_nodup (key : String × String) :
    ∀ (l : List (Nat × Memory)), (l.map (fun p => memKey p.2)).Nodup →
      (l.map (fun p => if memKey p.2 = key then 1 / (60 + ((p.1 : ℚ) + 1)) else 0)).sum
        = match l.find? (fun p => memKey p.2 = key) with
          | some p => 1 / (60 + ((p.1 : ℚ) + 1))
          | none => 0 := by
  intro l
  induction l with
  | nil => intro _; rfl
  | cons p t ih =>
    intro hnd
    rw [List.map_cons] at hnd
    obtain ⟨hhead, htail⟩ := List.nodup_cons.mp hnd
    by_cases hk : memKey p.2 = key
    · rw [List.map_cons, List.sum_cons, if_pos hk,
        List.find?_cons_of_pos _ (by simpa using hk)]
      have hzero : (t.map (fun p => if memKey p.2 = key then 1 / (60 + ((p.1 : ℚ) + 1)) else 0)).sum = 0 := by
        apply contrib_sum_zero
        rw [← hk]
        exact hhead
      rw [hzero]
      ring
    · rw [List.map_cons, List.sum_cons, if_neg hk,
        List.find?_cons_of_neg _ (by simpa using hk), ih htail]
      ring

/-! ### C1 — Reciprocal Rank Fusion -/

/-- C1: `_rrf_merge` returns at most `k` items with pairwise-distinct
`(source, content)` keys, sorted by fused score descending with ties broken
stably by first-seen order; each item's stable id is the id of its first
occurrence across the channel iteration; under per-channel key uniqueness
the fused score is the sum over channels of `1/(60 + r)` for the channel
rank `r` (0 where absent); in particular one item at rank 1 in two channels
scores `2/61` and carries the first channel's id, and a rank-2 item of a
single channel scores `1/62`. -/
theorem c1_rrf_merge (groups : List (List Memory)) (k : Nat) :
    (rrf_merge groups k).length ≤ k ∧
    ((rrf_merge groups k).map memKey).Nodup ∧
    (rrf_merge groups k).Pairwise (fun a b =>
        rrfScore groups (memKey b) < rrfScore groups (memKey a) ∨
        (rrfScore groups (memKey a) = rrfScore groups (memKey b) ∧
         posIn (rrfKeys groups) (memKey a) < posIn (rrfKeys groups) (memKey b))) ∧
    (∀ m ∈ rrf_merge groups k, ∃ m0 ∈ groups.flatten,
        groups.flatten.find? (fun x => memKey x = memKey m) = some m0 ∧ m.id = m0.id) ∧
    ((∀ g ∈ groups, (g.map memKey).Nodup) →
      ∀ m ∈ rrf_merge groups k,
        rrfScore groups (memKey m)
          = (groups.map (fun g =>
              match g.enum.find? (fun p => memKey p.2 = memKey m) with
              | some p => 1 / (60 + ((p.1 : ℚ) + 1))
              | none => 0)).sum) ∧
    rrf_merge cgTwo 10 = [memA] ∧
    rrfScore cgTwo ("s", "c") = 2/61 ∧
    rrfScore cgOne ("s", "c2") = 1/62 := by
  have hsorted := stable_sort_pairwise (rrfScore groups) (rrfKeys groups)
    (rrfKeys_nodup groups)
  have hsortednd : (rrfSorted groups).Nodup :=
    ((List.mergeSort_perm (rrfKeys groups) _).nodup_iff).mpr (rrfKeys_nodup groups)
  refine ⟨?_, ?_, ?_, ?_, ?_, ?_, ?_, ?_⟩
  · rw [rrf_merge, List.length_map, List.length_take]
    exact min_le_left _ _
  · rw [rrf_merge, List.map_map]
    have hid : (memKey ∘ fun key : String × String =>
        (⟨(alookup (buildIds groups) key).getD "", key.2, key.1⟩ : Memory)) = id := rfl
    rw [hid, List.map_id]
    exact ((List.take_sublist _ _).nodup hsortednd)
  · rw [rrf_merge, List.pairwise_map]
    exact List.Pairwise.sublist (List.take_sublist _ _) hsorted
  · intro m hm
    rw [rrf_merge] at hm
    obtain ⟨key, hkey, rfl⟩ := List.mem_map.mp hm
    have hkeys : key ∈ rrfKeys groups := by
      have h1 : key ∈ rrfSorted groups := List.mem_of_mem_take hkey
      rw [rrfSorted] at h1
      exact List.mem_mergeSort.mp h1
    obtain ⟨m1, hm1, hm1k⟩ := rrfKeys_occurs groups key hkeys
    have hfs : (groups.flatten.find? (fun x => memKey x = key)).isSome := by
      rw [List.find?_isSome]
      exact ⟨m1, hm1, by simpa using hm1k⟩
    obtain ⟨m0, hfind⟩ := Option.isSome_iff_exists.mp hfs
    refine ⟨m0, List.mem_of_find?_eq_some hfind, hfind, ?_⟩
    show (alookup (buildIds groups) key).getD "" = m0.id
    rw [buildIds_alookup, hfind]
    rfl
  · intro hnods m hm
    rw [rrf_merge] at hm
    obtain ⟨key, _, rfl⟩ := List.mem_map.mp hm
    show rrfScore groups key = _
    rw [rrfScore_eq_sum]
    apply congrArg
    apply List.map_congr_left
    intro g hg
    rw [show memKey (⟨(alookup (buildIds groups) key).getD "", key.2, key.1⟩ : Memory)
          = key from rfl]
    have hnodg : (g.enum.map (fun p => memKey p.2)).Nodup := by
      have hconv : g.enum.map (fun p : Nat × Memory => memKey p.2) = g.map memKey := by
        conv_rhs => rw [← List.enum_map_snd g]
        rw [List.map_map]
        rfl
      rw [hconv]
      exact hnods g hg
    rw [groupContrib, contrib_of_nodup key g.enum hnodg]
  · have hkeys : rrfKeys cgTwo = [("s", "c")] := rfl
    have hids : alookup (buildIds cgTwo) ("s", "c") = some "a" := rfl
    rw [rrf_merge, rrfSorted, hkeys, List.mergeSort_singleton]
    rw [show ([("s", "c")] : List (String × String)).take 10 = [("s", "c")] from rfl]
    rw [List.map_cons, List.map_nil, hids]
    rfl
  · rw [rrfScore_eq_sum]
    show groupContrib [memA] ("s", "c") + (groupContrib [memB] ("s", "c") + 0) = 2/61
    rw [groupContrib, groupContrib]
    rw [show ([memA] : List Memory).enum = [(0, memA)] from rfl,
        show ([memB] : List Memory).enum = [(0, memB)] from rfl]
    simp only [List.map_cons, List.map_nil, List.sum_cons, List.sum_nil]
    rw [if_pos (by decide : memKey memA = ("s", "c")),
        if_pos (by decide : memKey memB = ("s", "c"))]
    norm_num
  · rw [rrfScore_eq_sum]
    show groupContrib [memX, memY] ("s", "c2") + 0 = 1/62
    rw [groupContrib]
    rw [show ([memX, memY] : List Memory).enum = [(0, memX), (1, memY)] from rfl]
    simp only [List.map_cons, List.map_nil, List.sum_cons, List.sum_nil]
    rw [if_neg (by decide : ¬ memKey memX = ("s", "c2")),
        if_pos (by decide : memKey memY = ("s", "c2"))]
    norm_num

/-- C1 witness at the two-channel fixture: the merged item carries the first
channel's id and the score formula instantiates. -/
theorem c1_rrf_merge_witness :
    (∃ m0 ∈ cgTwo.flatten,
      cgTwo.flatten.find? (fun x => memKey x = memKey memA) = some m0 ∧
      memA.id = m0.id) ∧
    rrfScore cgTwo (memKey memA)
      = (cgTwo.map (fun g =>
          match g.enum.find? (fun p => memKey p.2 = memKey memA) with
          | some p => 1 / (60 + ((p.1 : ℚ) + 1))
          | none => 0)).sum := by
  obtain ⟨_, _, _, h4, h5, h6, _, _⟩ := c1_rrf_merge cgTwo 10
  have hmem : memA ∈ rrf_merge cgTwo 10 := by
    rw [h6]
    exact List.mem_singleton.mpr rfl
  exact ⟨h4 memA hmem, h5 (by decide) memA hmem⟩

end Eclipsn
